import Mathlib

/-!
Verification of the super-zhot tournament builder and diagram layout.

Shallow embedding of `src/super-zhot.py`: the tournament relation built in
`Move.__init__` / `Move.beats_num`, the validation in `Game.__init__`, and
the circular diagram layout of `Diagram.__init__` (`frange` angles,
cardinal and trigonometric point placement, `Point` rounding, edge list and
label sizing).  Exact rational arithmetic stands in for Python floats; the
trigonometric branch is embedded over the reals.
-/

open scoped Classical

/-- Embedding of Python `round(x)` to the nearest integer on an exact
rational value: round half to even (banker's rounding). -/
def pyRoundInt (q : ℚ) : ℤ :=
  if q - ⌊q⌋ < 1/2 then ⌊q⌋
  else if 1/2 < q - ⌊q⌋ then ⌊q⌋ + 1
  else if ⌊q⌋ % 2 = 0 then ⌊q⌋ else ⌊q⌋ + 1

/-- Embedding of the helper `rounded(num)` of the source, Python
`round(num, 2)`: round half to even at the second decimal place. -/
def rounded (q : ℚ) : ℚ := (pyRoundInt (q * 100) : ℚ) / 100

/-- The class attribute `Move.generic_verb`. -/
def generic_verb : String := "beats"

/-- Python dict assignment `d[k] = v` on an insertion-ordered dictionary:
overwrite in place when the key is present, otherwise append. -/
def dictInsert (d : List (String × String)) (k v : String) : List (String × String) :=
  if d.any (fun p => p.1 == k) then
    d.map (fun p => if p.1 == k then (k, v) else p)
  else d ++ [(k, v)]

/-- Python `range(start, stop, step)` for a positive step. -/
def rangeStep (start stop step : ℕ) : List ℕ :=
  (List.range ((stop - start + step - 1) / step)).map (fun k => start + step * k)

/-- The loop of `Move.__init__` filling the name-keyed `beats` dictionary:
for each offset, pop the next verb (stripped; the generic verb once the
list is exhausted) and map the defeated move's name to it. -/
def buildBeats (number total : ℕ) (names : List String) :
    List ℕ → List String → List (String × String) → List (String × String)
  | [], _, d => d
  | o :: os, vs, d =>
      let verb := match vs with
        | [] => generic_verb
        | v :: _ => v.trim
      buildBeats number total names os vs.tail
        (dictInsert d (names.getD ((number + o) % total) "") verb)

/-- `Move.beats_num`: all the odd indices of the catalog, shifted forward
by the number of the current move, wrapped modulo the move count. -/
def beatsNum (total number : ℕ) : List ℕ :=
  ((List.range total).filter (fun o => o % 2 != 0)).map (fun o => (o + number) % total)

structure Move where
  move : String
  beats : List (String × String)
  num : ℕ
  beats_num : List ℕ
deriving DecidableEq, Repr

/-- `Move.__init__(number, info, move_names)`: the move's name is the first
entry of its record, the remaining entries are its verbs; the name-keyed
`beats` dictionary runs over the offsets `range(1, total, 2)`. -/
def Move.make (number : ℕ) (info : List String) (names : List String) : Move :=
  { move := info.headD ""
    beats := buildBeats number names.length names (rangeStep 1 names.length 2) info.tail []
    num := number
    beats_num := beatsNum names.length number }

inductive GameError where
  | notOdd
  | insufficientMoves
deriving DecidableEq, Repr

/-- `Game.__init__` after CSV parsing: drop blank rows, then raise
`NotOddError` for an even move count and `InsufficientMovesError` for fewer
than three moves - both before any `Move` object is constructed - and
otherwise build one `Move` per row. -/
def buildGame (rows : List (List String)) : Except GameError (List Move) :=
  let mff := rows.filter (fun r => r.length != 0)
  if mff.length % 2 = 0 then Except.error GameError.notOdd
  else if mff.length < 3 then Except.error GameError.insufficientMoves
  else Except.ok (mff.enum.map (fun p => Move.make p.1 p.2 (mff.map (fun r => r.headD ""))))

/-- `CIRCLE_RADIUS = round(DIAGRAM_RADIUS / len(move_objs))` with
`DIAGRAM_RADIUS = round(DIAGRAM_SIZE / 2) = 500` and `DIAGRAM_SIZE = 1000`. -/
def circleRadius (n : ℕ) : ℤ := pyRoundInt (500 / n : ℚ)

/-- `matplotlib.mlab.frange(xini, xfin, delta)` with the default closed
endpoint: `round((xfin - xini) / delta) + 1` values `xini + k * delta`. -/
def frange (xini xfin delta : ℚ) : List ℚ :=
  (List.range ((pyRoundInt ((xfin - xini) / delta)).toNat + 1)).map
    (fun k : ℕ => (k : ℚ) * delta + xini)

/-- The angle list of `Diagram.__init__`:
`frange(angle_slice, FULL_CIRCLE, angle_slice)` with
`angle_slice = 360 / len(move_objs)`. -/
def angles (n : ℕ) : List ℚ := frange (360 / n) 360 (360 / n)

/-- Python `x % y` on reals, for a positive modulus. -/
noncomputable def pmod (x y : ℝ) : ℝ := x - y * ⌊x / y⌋

/-- `math.radians(angle % EAST)` with `EAST = 90`. -/
noncomputable def radiansOf (θ : ℝ) : ℝ := pmod θ 90 * Real.pi / 180

/-- Python `round(x)` to the nearest integer on a real argument (round
half to even). -/
noncomputable def pyRoundIntR (x : ℝ) : ℤ :=
  if x - ⌊x⌋ < 1/2 then ⌊x⌋
  else if 1/2 < x - ⌊x⌋ then ⌊x⌋ + 1
  else if ⌊x⌋ % 2 = 0 then ⌊x⌋ else ⌊x⌋ + 1

/-- `rounded` on a real coordinate: round half to even at two decimals. -/
noncomputable def round2R (x : ℝ) : ℝ := (pyRoundIntR (x * 100) : ℝ) / 100

/-- `Point.__init__`: both coordinates are rounded on construction. -/
noncomputable def roundPoint (p : ℝ × ℝ) : ℝ × ℝ := (round2R p.1, round2R p.2)

/-- The per-angle placement of `Diagram.__init__`: the four exact cardinal
branches first (`angle == NORTH or angle == FULL_CIRCLE`, `EAST`, `SOUTH`,
`WEST`), otherwise the quadrant trigonometry with
`opposite = hypotenuse * sin(radians)`, `adjacent = hypotenuse * cos(radians)`
and `hypotenuse = DIAGRAM_RADIUS - CIRCLE_RADIUS`. -/
noncomputable def diagramPoint (n : ℕ) (θ : ℝ) : ℝ × ℝ :=
  if θ = 0 ∨ θ = 360 then (500, (circleRadius n : ℝ))
  else if θ = 90 then (1000 - (circleRadius n : ℝ), 500)
  else if θ = 180 then (500, 1000 - (circleRadius n : ℝ))
  else if θ = 270 then ((circleRadius n : ℝ), 500)
  else if θ < 90 then
    (500 + (500 - (circleRadius n : ℝ)) * Real.sin (radiansOf θ),
     500 - (500 - (circleRadius n : ℝ)) * Real.cos (radiansOf θ))
  else if θ < 180 then
    (500 + (500 - (circleRadius n : ℝ)) * Real.cos (radiansOf θ),
     500 + (500 - (circleRadius n : ℝ)) * Real.sin (radiansOf θ))
  else if θ < 270 then
    (500 - (500 - (circleRadius n : ℝ)) * Real.sin (radiansOf θ),
     500 + (500 - (circleRadius n : ℝ)) * Real.cos (radiansOf θ))
  else
    (500 - (500 - (circleRadius n : ℝ)) * Real.cos (radiansOf θ),
     500 - (500 - (circleRadius n : ℝ)) * Real.sin (radiansOf θ))

/-- `move_points`: one rounded `Point` per angle of the `frange` list. -/
noncomputable def movePoints (n : ℕ) : List (ℝ × ℝ) :=
  (angles n).map (fun q : ℚ => roundPoint (diagramPoint n (q : ℝ)))

/-- The diagnostic condition `len(move_points) > len(move_objs)` guarding
the `Slight error` message. -/
def tooManyCircles (n : ℕ) : Prop := (movePoints n).length > n

/-- The edge list of the diagram: for each move index, one line to every
index in that move's `beats_num`. -/
def edges (n : ℕ) : List (ℕ × ℕ) :=
  (List.range n).flatMap (fun i => (beatsNum n i).map (fun j => (i, j)))

structure Label where
  text : String
  widthPx : ℚ
  insert : ℝ × ℝ

/-- The label block of `Diagram.__init__`: the text is the move's name,
`textLength` is `rounded(1.9 * CIRCLE_RADIUS * (min(len(text), 12) / 12))`,
and the insertion point is
`(rounded(point.x), rounded(point.y + text_size / 4))` with
`text_size = CIRCLE_RADIUS / 3`. -/
noncomputable def makeLabel (n : ℕ) (name : String) (p : ℝ × ℝ) : Label :=
  { text := name
    widthPx := rounded (19/10 * (circleRadius n : ℚ) * (((min name.length 12 : ℕ) : ℚ) / 12))
    insert := (round2R p.1, round2R (p.2 + (circleRadius n : ℝ) / 3 / 4)) }

/-! Evaluation lemmas for the concrete instances used by the claims. -/

lemma pyRoundInt_intCast (z : ℤ) : pyRoundInt (z : ℚ) = z := by
  simp [pyRoundInt, Int.floor_intCast]

lemma circleRadius_three : circleRadius 3 = 167 := by
  norm_num [circleRadius, pyRoundInt]

lemma circleRadius_four : circleRadius 4 = 125 := by
  norm_num [circleRadius, pyRoundInt]

lemma circleRadius_seven : circleRadius 7 = 71 := by
  norm_num [circleRadius, pyRoundInt]

/-- In exact arithmetic `frange(360/n, 360, 360/n)` is the list of the `n`
angles `(k+1) * 360/n` for `0 ≤ k < n`. -/
lemma angles_eq (n : ℕ) (h : 1 ≤ n) :
    angles n = (List.range n).map (fun k : ℕ => ((k : ℚ) + 1) * (360 / n)) := by
  have hn : (n : ℚ) ≠ 0 := Nat.cast_ne_zero.mpr (by omega)
  have hq : ((360 : ℚ) - 360 / n) / (360 / n) = (((n : ℤ) - 1 : ℤ) : ℚ) := by
    push_cast
    field_simp
    ring
  rw [angles, frange, hq, pyRoundInt_intCast]
  have ht : ((n : ℤ) - 1).toNat + 1 = n := by omega
  rw [ht]
  exact List.map_congr_left (fun a _ => by ring)

lemma angles_three : angles 3 = [120, 240, 360] := by
  rw [angles_eq 3 (by norm_num)]
  norm_num [List.range_succ]

lemma angles_four : angles 4 = [90, 180, 270, 360] := by
  rw [angles_eq 4 (by norm_num)]
  norm_num [List.range_succ]

example : beatsNum 5 1 = [2, 4] := by decide
example : beatsNum 3 0 = [1] := by decide
example : (buildGame [["Rock"], ["Rock"], ["Rock"]]).isOk = true := by decide
example : (buildGame [["a"], ["b"]]).isOk = false := by decide
example : rangeStep 1 5 2 = [1, 3] := by decide

/-! Arithmetic of the odd-offset rule. -/

/-- Rotating an offset `o < N` forward by `i < N` and back recovers `o`. -/
lemma rot_mod_sub {N i o : ℕ} (hi : i < N) (ho : o < N) :
    (N + (o + i) % N - i) % N = o := by
  have hN : 0 < N := by omega
  have hdm := Nat.div_add_mod (o + i) N
  have hklt : (o + i) / N < 2 := Nat.div_lt_of_lt_mul (by omega)
  have hmlt : (o + i) % N < N := Nat.mod_lt _ hN
  set m := (o + i) % N with hm
  set k := (o + i) / N with hk
  interval_cases k
  · have e : N + m - i = N + o := by omega
    rw [e, Nat.add_mod_left, Nat.mod_eq_of_lt ho]
  · have e : N + m - i = o := by omega
    rw [e, Nat.mod_eq_of_lt ho]

/-- Rotation modulo `N` is injective on offsets below `N`. -/
lemma rot_inj {N o₁ o₂ i : ℕ} (h₁ : o₁ < N) (h₂ : o₂ < N)
    (h : (o₁ + i) % N = (o₂ + i) % N) : o₁ = o₂ := by
  have hm : o₁ + i ≡ o₂ + i [MOD N] := h
  have hc : o₁ ≡ o₂ [MOD N] := Nat.ModEq.add_right_cancel' i hm
  have hc' : o₁ % N = o₂ % N := hc
  rwa [Nat.mod_eq_of_lt h₁, Nat.mod_eq_of_lt h₂] at hc'

/-- Membership in `beats_num` is oddness of the cyclic distance
`(N + j - i) % N` from the move to the target. -/
lemma mem_beatsNum {N i j : ℕ} (hi : i < N) (hj : j < N) :
    j ∈ beatsNum N i ↔ ((N + j - i) % N) % 2 = 1 := by
  have hN : 0 < N := by omega
  constructor
  · intro hmem
    simp only [beatsNum, List.mem_map, List.mem_filter, List.mem_range] at hmem
    obtain ⟨o, ⟨ho, hodd⟩, rfl⟩ := hmem
    have hodd' : o % 2 = 1 := by
      revert hodd
      rcases Nat.mod_two_eq_zero_or_one o with h | h <;> simp [h]
    rw [rot_mod_sub hi ho]
    exact hodd'
  · intro hd
    have holt : (N + j - i) % N < N := Nat.mod_lt _ hN
    simp only [beatsNum, List.mem_map, List.mem_filter, List.mem_range]
    refine ⟨(N + j - i) % N, ⟨holt, by simp [hd]⟩, ?_⟩
    have e1 : ((N + j - i) % N + i) % N = (N + j - i + i) % N := Nat.mod_add_mod _ _ _
    have e2 : N + j - i + i = N + j := by omega
    rw [e1, e2, Nat.add_mod_left, Nat.mod_eq_of_lt hj]

/-- The two cyclic distances of a pair of distinct indices sum to `N`. -/
lemma dval_add {N i j : ℕ} (hi : i < N) (hj : j < N) (hne : i ≠ j) :
    (N + j - i) % N + (N + i - j) % N = N := by
  rcases Nat.lt_or_ge i j with h | h
  · have h1 : (N + j - i) % N = j - i := by
      have e : N + j - i = N + (j - i) := by omega
      rw [e, Nat.add_mod_left, Nat.mod_eq_of_lt (by omega)]
    have h2 : (N + i - j) % N = N + i - j := Nat.mod_eq_of_lt (by omega)
    omega
  · have hj' : j < i := by omega
    have h1 : (N + j - i) % N = N + j - i := Nat.mod_eq_of_lt (by omega)
    have h2 : (N + i - j) % N = i - j := by
      have e : N + i - j = N + (i - j) := by omega
      rw [e, Nat.add_mod_left, Nat.mod_eq_of_lt (by omega)]
    omega

/-- No move lists itself in its `beats_num`. -/
lemma beats_irrefl {N i : ℕ} (hi : i < N) : i ∉ beatsNum N i := by
  rw [mem_beatsNum hi hi]
  have e : N + i - i = N := by omega
  rw [e, Nat.mod_self]
  omega

/-- For an odd move count, a pair of distinct moves is decided in exactly
one direction. -/
lemma beats_trichotomy {N i j : ℕ} (hodd : N % 2 = 1) (hi : i < N) (hj : j < N)
    (hne : i ≠ j) : j ∈ beatsNum N i ↔ i ∉ beatsNum N j := by
  rw [mem_beatsNum hi hj, mem_beatsNum hj hi]
  have := dval_add hi hj hne
  omega

lemma count_filter_odd (n : ℕ) :
    ((List.range n).filter (fun o => o % 2 != 0)).length = n / 2 := by
  induction n with
  | zero => simp
  | succ m ih =>
      rw [List.range_succ, List.filter_append, List.length_append, ih]
      rcases Nat.mod_two_eq_zero_or_one m with h | h <;>
        simp [List.filter, h] <;> omega

lemma beatsNum_length (N i : ℕ) : (beatsNum N i).length = N / 2 := by
  rw [beatsNum, List.length_map, count_filter_odd]

lemma beatsNum_lt {N i j : ℕ} (hN : 0 < N) (h : j ∈ beatsNum N i) : j < N := by
  simp only [beatsNum, List.mem_map] at h
  obtain ⟨o, _, rfl⟩ := h
  exact Nat.mod_lt _ hN

lemma beatsNum_nodup (N i : ℕ) : (beatsNum N i).Nodup := by
  apply List.Nodup.map_on
  · intro o₁ h₁ o₂ h₂ heq
    simp only [List.mem_filter, List.mem_range] at h₁ h₂
    exact rot_inj h₁.1 h₂.1 heq
  · exact (List.nodup_range _).filter _

lemma bne_two_iff (o : ℕ) : (o % 2 != 0) = true ↔ o % 2 = 1 := by
  rcases Nat.mod_two_eq_zero_or_one o with h | h <;> simp [h]

/-- `range(1, n, 2)` lists exactly the odd members of `range(n)`. -/
lemma rangeStep_one_two (n : ℕ) :
    rangeStep 1 n 2 = (List.range n).filter (fun o => o % 2 != 0) := by
  induction n with
  | zero => rfl
  | succ m ih =>
      rw [List.range_succ, List.filter_append, ← ih]
      simp only [rangeStep]
      rcases Nat.mod_two_eq_zero_or_one m with h | h
      · have e1 : (m + 1 - 1 + 2 - 1) / 2 = (m - 1 + 2 - 1) / 2 := by omega
        rw [e1]
        simp [List.filter, h]
      · have e1 : (m + 1 - 1 + 2 - 1) / 2 = (m - 1 + 2 - 1) / 2 + 1 := by omega
        have e2 : 1 + 2 * ((m - 1 + 1) / 2) = m := by omega
        rw [e1, List.range_succ, List.map_append]
        simp [List.filter, h, e2]

/-- Inserting a fresh key into a Python dict appends it. -/
lemma dictInsert_of_not_mem {d : List (String × String)} {k v : String}
    (h : k ∉ d.map Prod.fst) : dictInsert d k v = d ++ [(k, v)] := by
  have hc : ¬ (d.any (fun p => p.1 == k) = true) := by
    simp only [List.any_eq_true, beq_iff_eq]
    rintro ⟨p, hp, rfl⟩
    exact h (List.mem_map_of_mem Prod.fst hp)
  rw [dictInsert, if_neg hc]

/-- As long as the defeated-move names are distinct, the keys of the
dictionary built by the `Move.__init__` loop are exactly those names, in
offset order; the verbs play no role. -/
lemma buildBeats_fst (number total : ℕ) (names : List String) (os : List ℕ) :
    ∀ (vs : List String) (d : List (String × String)),
      (d.map Prod.fst ++ os.map (fun o => names.getD ((number + o) % total) "")).Nodup →
      (buildBeats number total names os vs d).map Prod.fst
        = d.map Prod.fst ++ os.map (fun o => names.getD ((number + o) % total) "") := by
  induction os with
  | nil =>
      intro vs d _
      simp [buildBeats]
  | cons o os ih =>
      intro vs d h
      have hnot : names.getD ((number + o) % total) "" ∉ d.map Prod.fst := by
        intro hmem
        exact (List.nodup_append.mp h).2.2 hmem (by simp)
      simp only [buildBeats]
      rw [dictInsert_of_not_mem hnot]
      have h' : ((d ++ [(names.getD ((number + o) % total) "",
          match vs with | [] => generic_verb | v :: _ => v.trim)]).map Prod.fst
          ++ os.map (fun o => names.getD ((number + o) % total) "")).Nodup := by
        rw [List.map_append]
        simpa [List.append_assoc] using h
      rw [ih vs.tail _ h', List.map_append, List.append_assoc]
      simp

/-- With distinct move names, the defeated names listed by the
`Move.__init__` loop have no duplicates. -/
lemma losers_nodup {names : List String} (hnd : names.Nodup) (number : ℕ)
    (hnum : number < names.length) :
    ((List.range names.length).filter (fun o => o % 2 != 0)).map
      (fun o => names.getD ((number + o) % names.length) "") |>.Nodup := by
  have hN : 0 < names.length := by omega
  apply List.Nodup.map_on
  · intro o₁ h₁ o₂ h₂ heq
    simp only [List.mem_filter, List.mem_range] at h₁ h₂
    have k₁ : (number + o₁) % names.length < names.length := Nat.mod_lt _ hN
    have k₂ : (number + o₂) % names.length < names.length := Nat.mod_lt _ hN
    rw [List.getD_eq_getElem _ _ k₁, List.getD_eq_getElem _ _ k₂,
      List.Nodup.getElem_inj_iff hnd] at heq
    rw [Nat.add_comm number o₁, Nat.add_comm number o₂] at heq
    exact rot_inj h₁.1 h₂.1 heq
  · exact (List.nodup_range _).filter _

/-- The keys of a `Move`'s name-keyed `beats` dictionary, in order. -/
lemma makeMove_beats_fst (number : ℕ) (info : List String) {names : List String}
    (hnd : names.Nodup) (hnum : number < names.length) :
    (Move.make number info names).beats.map Prod.fst
      = ((List.range names.length).filter (fun o => o % 2 != 0)).map
          (fun o => names.getD ((number + o) % names.length) "") := by
  show (buildBeats number names.length names (rangeStep 1 names.length 2)
      info.tail []).map Prod.fst = _
  rw [rangeStep_one_two]
  have h := buildBeats_fst number names.length names
    ((List.range names.length).filter (fun o => o % 2 != 0)) info.tail []
  simp only [List.map_nil, List.nil_append] at h
  exact h (losers_nodup hnd number hnum)

/-- The list `beats_num` as a finite set is the image of the odd offsets. -/
lemma beatsNum_toFinset (N i : ℕ) :
    (beatsNum N i).toFinset
      = ((Finset.range N).filter (fun o => o % 2 = 1)).image (fun o => (i + o) % N) := by
  ext j
  simp only [beatsNum, List.mem_toFinset, List.mem_map, List.mem_filter, List.mem_range,
    Finset.mem_image, Finset.mem_filter, Finset.mem_range, bne_two_iff]
  constructor
  · rintro ⟨o, ⟨ho, hodd⟩, rfl⟩
    exact ⟨o, ⟨ho, hodd⟩, by rw [Nat.add_comm]⟩
  · rintro ⟨o, ⟨ho, hodd⟩, rfl⟩
    exact ⟨o, ⟨ho, hodd⟩, by rw [Nat.add_comm]⟩

/-- Each move's `beats_num` hits `(N-1)/2` distinct other moves. -/
lemma beats_card {N i : ℕ} (hodd : N % 2 = 1) (hi : i < N) :
    ((Finset.range N).filter (fun j => j ∈ beatsNum N i)).card = (N - 1) / 2 := by
  have hN : 0 < N := by omega
  have hfe : (Finset.range N).filter (fun j => j ∈ beatsNum N i)
      = (beatsNum N i).toFinset := by
    ext j
    simp only [Finset.mem_filter, Finset.mem_range, List.mem_toFinset]
    exact ⟨fun h => h.2, fun h => ⟨beatsNum_lt hN h, h⟩⟩
  rw [hfe, List.toFinset_card_of_nodup (beatsNum_nodup N i), beatsNum_length]
  omega

/-- Each move is hit by the `beats_num` of `(N-1)/2` other moves. -/
lemma beaten_card {N i : ℕ} (hodd : N % 2 = 1) (hi : i < N) :
    ((Finset.range N).filter (fun j => i ∈ beatsNum N j)).card = (N - 1) / 2 := by
  have hN : 0 < N := by omega
  have hcompl : (Finset.range N).filter (fun j => ¬ i ∈ beatsNum N j)
      = insert i ((Finset.range N).filter (fun j => j ∈ beatsNum N i)) := by
    ext j
    simp only [Finset.mem_filter, Finset.mem_range, Finset.mem_insert]
    constructor
    · rintro ⟨hjN, hnot⟩
      by_cases he : j = i
      · exact Or.inl he
      · exact Or.inr ⟨hjN, (beats_trichotomy hodd hi hjN (fun h => he h.symm)).mpr hnot⟩
    · rintro (rfl | ⟨hjN, hmem⟩)
      · exact ⟨hi, beats_irrefl hi⟩
      · have hne : i ≠ j := by
          rintro rfl
          exact beats_irrefl hi hmem
        exact ⟨hjN, fun hc => ((beats_trichotomy hodd hi hjN hne).mp hmem) hc⟩
  have hpar := Finset.filter_card_add_filter_neg_card_eq_card
    (s := Finset.range N) (p := fun j => i ∈ beatsNum N j)
  have hnm : i ∉ (Finset.range N).filter (fun j => j ∈ beatsNum N i) := by
    simp only [Finset.mem_filter, Finset.mem_range]
    exact fun h => beats_irrefl hi h.2
  rw [hcompl, Finset.card_insert_of_not_mem hnm, beats_card hodd hi,
    Finset.card_range] at hpar
  omega

lemma makeMove_beats_num (number : ℕ) (info names : List String) :
    (Move.make number info names).beats_num = beatsNum names.length number := rfl

/-- C1: for every valid catalog (odd length at least three, distinct
names) and every move index, the catalog indices whose names are keys of
the move's name-keyed `beats` dictionary form exactly the set listed by
its index-keyed `beats_num`, and that set is the image of the odd
offsets `o` under `(i + o) % N`. -/
theorem c1_name_and_index_beats_agree (names info : List String) (i : ℕ)
    (hodd : names.length % 2 = 1) (hlen : 3 ≤ names.length)
    (hnd : names.Nodup) (hi : i < names.length) :
    ((Finset.range names.length).filter
        (fun j => names.getD j "" ∈ (Move.make i info names).beats.map Prod.fst))
      = (Move.make i info names).beats_num.toFinset
    ∧ (Move.make i info names).beats_num.toFinset
      = ((Finset.range names.length).filter (fun o => o % 2 = 1)).image
          (fun o => (i + o) % names.length) := by
  have hN : 0 < names.length := by omega
  refine ⟨?_, by rw [makeMove_beats_num]; exact beatsNum_toFinset names.length i⟩
  rw [makeMove_beats_num]
  ext j
  simp only [Finset.mem_filter, Finset.mem_range, List.mem_toFinset]
  rw [makeMove_beats_fst i info hnd hi]
  constructor
  · rintro ⟨hjN, hmem⟩
    simp only [List.mem_map, List.mem_filter, List.mem_range] at hmem
    obtain ⟨o, ⟨ho, hoo⟩, heq⟩ := hmem
    have k₁ : (i + o) % names.length < names.length := Nat.mod_lt _ hN
    rw [List.getD_eq_getElem _ _ k₁, List.getD_eq_getElem _ _ hjN,
      List.Nodup.getElem_inj_iff hnd] at heq
    simp only [beatsNum, List.mem_map, List.mem_filter, List.mem_range]
    exact ⟨o, ⟨ho, hoo⟩, by rw [Nat.add_comm]; exact heq⟩
  · intro hmem
    have hjN : j < names.length := beatsNum_lt hN hmem
    refine ⟨hjN, ?_⟩
    simp only [beatsNum, List.mem_map, List.mem_filter, List.mem_range] at hmem
    obtain ⟨o, ⟨ho, hoo⟩, rfl⟩ := hmem
    simp only [List.mem_map, List.mem_filter, List.mem_range]
    exact ⟨o, ⟨ho, hoo⟩, by rw [Nat.add_comm]⟩

/-- Witness for C1 at the default three-move catalog, move 0. -/
theorem c1_witness :
    (["Scissors", "Paper", "Rock"] : List String).length % 2 = 1
    ∧ 3 ≤ (["Scissors", "Paper", "Rock"] : List String).length
    ∧ (["Scissors", "Paper", "Rock"] : List String).Nodup
    ∧ 0 < (["Scissors", "Paper", "Rock"] : List String).length
    ∧ (((Finset.range (["Scissors", "Paper", "Rock"] : List String).length).filter
          (fun j => (["Scissors", "Paper", "Rock"] : List String).getD j ""
            ∈ (Move.make 0 ["Scissors", "cuts"] ["Scissors", "Paper", "Rock"]).beats.map
                Prod.fst))
        = (Move.make 0 ["Scissors", "cuts"] ["Scissors", "Paper", "Rock"]).beats_num.toFinset
      ∧ (Move.make 0 ["Scissors", "cuts"] ["Scissors", "Paper", "Rock"]).beats_num.toFinset
        = ((Finset.range (["Scissors", "Paper", "Rock"] : List String).length).filter
            (fun o => o % 2 = 1)).image
            (fun o => (0 + o) % (["Scissors", "Paper", "Rock"] : List String).length)) :=
  ⟨by decide, by decide, by decide, by decide,
    c1_name_and_index_beats_agree ["Scissors", "Paper", "Rock"] ["Scissors", "cuts"] 0
      (by decide) (by decide) (by decide) (by decide)⟩

/-- C2: for every odd move count at least three, the index relation
listed by `beats_num` is irreflexive and antisymmetric, each move beats
exactly `(N-1)/2` others, each move is beaten by exactly `(N-1)/2`
others, and every pair of distinct moves is decided in exactly one
direction. -/
theorem c2_balanced_relation (N : ℕ) (hodd : N % 2 = 1) (hlen : 3 ≤ N) :
    (∀ i, i < N → i ∉ beatsNum N i)
    ∧ (∀ i j, i < N → j < N → ¬ (j ∈ beatsNum N i ∧ i ∈ beatsNum N j))
    ∧ (∀ i, i < N →
        ((Finset.range N).filter (fun j => j ∈ beatsNum N i)).card = (N - 1) / 2)
    ∧ (∀ i, i < N →
        ((Finset.range N).filter (fun j => i ∈ beatsNum N j)).card = (N - 1) / 2)
    ∧ (∀ i j, i < N → j < N → i ≠ j → (j ∈ beatsNum N i ↔ i ∉ beatsNum N j)) := by
  refine ⟨fun i hi => beats_irrefl hi, ?_, fun i hi => beats_card hodd hi,
    fun i hi => beaten_card hodd hi,
    fun i j hi hj hne => beats_trichotomy hodd hi hj hne⟩
  rintro i j hi hj ⟨h₁, h₂⟩
  by_cases he : i = j
  · subst he
    exact beats_irrefl hi h₁
  · exact (beats_trichotomy hodd hi hj he).mp h₁ h₂

/-- Witness for C2 at the smallest valid move count, three. -/
theorem c2_witness :
    3 % 2 = 1 ∧ 3 ≤ 3
    ∧ ((∀ i, i < 3 → i ∉ beatsNum 3 i)
      ∧ (∀ i j, i < 3 → j < 3 → ¬ (j ∈ beatsNum 3 i ∧ i ∈ beatsNum 3 j))
      ∧ (∀ i, i < 3 →
          ((Finset.range 3).filter (fun j => j ∈ beatsNum 3 i)).card = (3 - 1) / 2)
      ∧ (∀ i, i < 3 →
          ((Finset.range 3).filter (fun j => i ∈ beatsNum 3 j)).card = (3 - 1) / 2)
      ∧ (∀ i j, i < 3 → j < 3 → i ≠ j → (j ∈ beatsNum 3 i ↔ i ∉ beatsNum 3 j))) :=
  ⟨rfl, le_refl 3, c2_balanced_relation 3 rfl (le_refl 3)⟩

/-- C3 counterexample: the claim demands a validation failure for
duplicated and for blank move names, but `Game.__init__` checks only the
move count, so both of these three-row inputs (all names equal, resp. a
blank first name) build a catalog successfully. -/
theorem c3_counterexample :
    (buildGame [["Rock"], ["Rock"], ["Rock"]]).isOk = true
    ∧ (buildGame [[""], ["Paper"], ["Rock"]]).isOk = true :=
  ⟨by decide, by decide⟩

/-- C3 amended: catalog construction fails, with no move objects built,
exactly when the count of nonempty rows is even or below three; blank or
duplicated move names are not rejected, and on success one move is built
per nonempty row. -/
theorem c3_amended (rows : List (List String)) :
    ((∃ e, buildGame rows = Except.error e)
      ↔ ((rows.filter (fun r => r.length != 0)).length % 2 = 0
          ∨ (rows.filter (fun r => r.length != 0)).length < 3))
    ∧ (∀ ms, buildGame rows = Except.ok ms
        → ms.length = (rows.filter (fun r => r.length != 0)).length) := by
  constructor
  · constructor
    · rintro ⟨e, he⟩
      by_contra hc
      push_neg at hc
      have hlt : ¬ (rows.filter (fun r => r.length != 0)).length < 3 := by omega
      simp only [buildGame, if_neg hc.1, if_neg hlt] at he
      exact absurd he (by simp)
    · intro h
      by_cases h2 : (rows.filter (fun r => r.length != 0)).length % 2 = 0
      · exact ⟨GameError.notOdd, by simp [buildGame, if_pos h2]⟩
      · refine ⟨GameError.insufficientMoves, ?_⟩
        have h3 : (rows.filter (fun r => r.length != 0)).length < 3 := by
          rcases h with h | h
          · exact absurd h h2
          · exact h
        simp [buildGame, if_neg h2, if_pos h3]
  · intro ms hms
    simp only [buildGame] at hms
    split_ifs at hms
    injection hms with h
    subst h
    rw [List.length_map, List.enum_length]

/-- C8: for every odd move count, the diagram's edge list has exactly
`N * (N-1) / 2` pairwise-distinct edges, its members are exactly the
pairs `(i, j)` with `j` in move `i`'s `beats_num`, and each unordered
pair of distinct moves contributes an edge in exactly one direction. -/
theorem c8_edge_count (N : ℕ) (hodd : N % 2 = 1) :
    (edges N).length = N * (N - 1) / 2
    ∧ (edges N).Nodup
    ∧ (∀ i j : ℕ, (i, j) ∈ edges N ↔ i < N ∧ j ∈ beatsNum N i)
    ∧ (∀ i j : ℕ, i < N → j < N → i ≠ j →
        ((i, j) ∈ edges N ↔ ¬ (j, i) ∈ edges N)) := by
  have hmem : ∀ i j : ℕ, (i, j) ∈ edges N ↔ i < N ∧ j ∈ beatsNum N i := by
    intro i j
    simp only [edges, List.mem_flatMap, List.mem_map, List.mem_range]
    constructor
    · rintro ⟨a, ha, b, hb, heq⟩
      obtain ⟨rfl, rfl⟩ := Prod.mk.injEq a b i j ▸ heq
      exact ⟨ha, hb⟩
    · rintro ⟨hi, hj⟩
      exact ⟨i, hi, j, hj, rfl⟩
  refine ⟨?_, ?_, hmem, ?_⟩
  · have h1 : (edges N).length = N * (N / 2) := by
      unfold edges
      rw [List.length_flatMap]
      have hfun : (List.length ∘ fun i : ℕ => (beatsNum N i).map fun j => (i, j))
          = (fun _ : ℕ => N / 2) :=
        funext fun a => by simp [Function.comp, beatsNum_length]
      rw [hfun, List.map_const', List.sum_replicate, List.length_range, smul_eq_mul]
    obtain ⟨m, rfl⟩ : ∃ m, N = 2 * m + 1 := ⟨N / 2, by omega⟩
    have h2 : (2 * m + 1) / 2 = m := by omega
    have h4 : 2 * m + 1 - 1 = 2 * m := by omega
    rw [h1, h2, h4]
    have h5 : (2 * m + 1) * (2 * m) = (2 * m + 1) * m * 2 := by ring
    rw [h5, Nat.mul_div_cancel _ two_pos]
  · refine List.nodup_flatMap.mpr ⟨?_, ?_⟩
    · intro i _
      exact List.Nodup.map (fun a b h => by simpa using congrArg Prod.snd h)
        (beatsNum_nodup N i)
    · refine List.Pairwise.imp ?_ (List.nodup_range N)
      intro a b hab x hxa hxb
      simp only [List.mem_map] at hxa hxb
      obtain ⟨j₁, _, rfl⟩ := hxa
      obtain ⟨j₂, _, h2⟩ := hxb
      exact hab (congrArg Prod.fst h2).symm
  · intro i j hi hj hne
    rw [hmem i j, hmem j i]
    constructor
    · rintro ⟨_, hbeats⟩ ⟨_, hc⟩
      exact (beats_trichotomy hodd hi hj hne).mp hbeats hc
    · intro hnot
      refine ⟨hi, ?_⟩
      rw [beats_trichotomy hodd hi hj hne]
      intro hc
      exact hnot ⟨hj, hc⟩

/-- Witness for C8 at move count three. -/
theorem c8_witness :
    3 % 2 = 1
    ∧ ((edges 3).length = 3 * (3 - 1) / 2
      ∧ (edges 3).Nodup
      ∧ (∀ i j : ℕ, (i, j) ∈ edges 3 ↔ i < 3 ∧ j ∈ beatsNum 3 i)
      ∧ (∀ i j : ℕ, i < 3 → j < 3 → i ≠ j →
          ((i, j) ∈ edges 3 ↔ ¬ (j, i) ∈ edges 3))) :=
  ⟨rfl, c8_edge_count 3 rfl⟩

/-- C10: for every valid move count, the `frange` angle list has exactly
`N` entries, so exactly `N` points are laid out and the too-many-circles
diagnostic condition is false. -/
theorem c10_angle_count (N : ℕ) (hodd : N % 2 = 1) (hlen : 3 ≤ N) :
    (angles N).length = N ∧ (movePoints N).length = N ∧ ¬ tooManyCircles N := by
  have h1 : (angles N).length = N := by
    rw [angles_eq N (by omega), List.length_map, List.length_range]
  have h2 : (movePoints N).length = N := by
    rw [movePoints, List.length_map, h1]
  refine ⟨h1, h2, ?_⟩
  unfold tooManyCircles
  omega

/-- Witness for C10 at move count three. -/
theorem c10_witness :
    3 % 2 = 1 ∧ 3 ≤ 3
    ∧ ((angles 3).length = 3 ∧ (movePoints 3).length = 3 ∧ ¬ tooManyCircles 3) :=
  ⟨rfl, le_refl 3, c10_angle_count 3 rfl (le_refl 3)⟩

/-! Rounding and placement lemmas over the reals. -/

lemma pyRoundIntR_intCast (z : ℤ) : pyRoundIntR (z : ℝ) = z := by
  simp [pyRoundIntR, Int.floor_intCast]

lemma round2R_hundredth (z : ℤ) : round2R ((z : ℝ) / 100) = (z : ℝ) / 100 := by
  have h : ((z : ℝ) / 100) * 100 = (z : ℝ) := by field_simp
  rw [round2R, h, pyRoundIntR_intCast]

/-- Any real number equal to an integer number of hundredths is fixed by
coordinate rounding. -/
lemma round2R_eq_self {x : ℝ} (z : ℤ) (h : x = (z : ℝ) / 100) : round2R x = x := by
  rw [h, round2R_hundredth]

lemma round2R_intCast (z : ℤ) : round2R (z : ℝ) = (z : ℝ) :=
  round2R_eq_self (100 * z) (by push_cast; ring)

lemma round2R_idem (x : ℝ) : round2R (round2R x) = round2R x :=
  round2R_eq_self (pyRoundIntR (x * 100)) rfl

lemma diagramPoint_zero (n : ℕ) : diagramPoint n 0 = (500, (circleRadius n : ℝ)) := by
  simp [diagramPoint]

lemma diagramPoint_360 (n : ℕ) : diagramPoint n 360 = (500, (circleRadius n : ℝ)) := by
  norm_num [diagramPoint]

lemma diagramPoint_90 (n : ℕ) :
    diagramPoint n 90 = (1000 - (circleRadius n : ℝ), 500) := by
  norm_num [diagramPoint]

lemma diagramPoint_180 (n : ℕ) :
    diagramPoint n 180 = (500, 1000 - (circleRadius n : ℝ)) := by
  norm_num [diagramPoint]

lemma diagramPoint_270 (n : ℕ) :
    diagramPoint n 270 = ((circleRadius n : ℝ), 500) := by
  norm_num [diagramPoint]

/-- The four points of the four-move diagram, in angle order east, south,
west, north. -/
lemma movePoints_four :
    movePoints 4 = [(875, 500), (500, 875), (125, 500), (500, 125)] := by
  rw [movePoints, angles_four]
  simp only [List.map_cons, List.map_nil]
  rw [show ((90 : ℚ) : ℝ) = 90 by norm_num, show ((180 : ℚ) : ℝ) = 180 by norm_num,
    show ((270 : ℚ) : ℝ) = 270 by norm_num, show ((360 : ℚ) : ℝ) = 360 by norm_num]
  rw [diagramPoint_90, diagramPoint_180, diagramPoint_270, diagramPoint_360,
    circleRadius_four]
  have h125 : round2R 125 = 125 := round2R_eq_self 12500 (by norm_num)
  have h500 : round2R 500 = 500 := round2R_eq_self 50000 (by norm_num)
  have h875 : round2R 875 = 875 := round2R_eq_self 87500 (by norm_num)
  norm_num [roundPoint, h125, h500, h875]

/-- Any angle outside the five cardinal tests lands in the trigonometric
branch, whose point lies at distance `hypotenuse` from the centre. -/
lemma diagramPoint_trig_dist {n : ℕ} {θ : ℝ} (h0 : θ ≠ 0) (h90 : θ ≠ 90)
    (h180 : θ ≠ 180) (h270 : θ ≠ 270) (h360 : θ ≠ 360) :
    ((diagramPoint n θ).1 - 500) ^ 2 + ((diagramPoint n θ).2 - 500) ^ 2
      = (500 - (circleRadius n : ℝ)) ^ 2 := by
  have hkey := Real.sin_sq_add_cos_sq (radiansOf θ)
  simp only [diagramPoint]
  rw [if_neg (by tauto), if_neg h90, if_neg h180, if_neg h270]
  split_ifs <;> linear_combination (500 - (circleRadius n : ℝ)) ^ 2 * hkey

/-- The cardinal points also lie at distance `hypotenuse` from the centre. -/
lemma diagramPoint_cardinal_dist (n : ℕ) {θ : ℝ}
    (h : θ = 0 ∨ θ = 90 ∨ θ = 180 ∨ θ = 270 ∨ θ = 360) :
    ((diagramPoint n θ).1 - 500) ^ 2 + ((diagramPoint n θ).2 - 500) ^ 2
      = (500 - (circleRadius n : ℝ)) ^ 2 := by
  rcases h with rfl | rfl | rfl | rfl | rfl
  · rw [diagramPoint_zero]
    ring
  · rw [diagramPoint_90]
    ring
  · rw [diagramPoint_180]
    ring
  · rw [diagramPoint_270]
    ring
  · rw [diagramPoint_360]
    ring

/-- C5: at the cardinal angles the layout takes the exact branch values
north `(R, r)`, east `(S - r, R)`, south `(R, S - r)`, west `(r, R)` for
every move count; in particular with four points `r = 125` and the four
laid-out points are `(875,500)`, `(500,875)`, `(125,500)`, `(500,125)`,
the north, east, south and west anchors. -/
theorem c5_cardinal_points (N : ℕ) :
    diagramPoint N 0 = (500, (circleRadius N : ℝ))
    ∧ diagramPoint N 360 = (500, (circleRadius N : ℝ))
    ∧ diagramPoint N 90 = (1000 - (circleRadius N : ℝ), 500)
    ∧ diagramPoint N 180 = (500, 1000 - (circleRadius N : ℝ))
    ∧ diagramPoint N 270 = ((circleRadius N : ℝ), 500)
    ∧ circleRadius 4 = 125
    ∧ movePoints 4 = [(875, 500), (500, 875), (125, 500), (500, 125)] :=
  ⟨diagramPoint_zero N, diagramPoint_360 N, diagramPoint_90 N, diagramPoint_180 N,
    diagramPoint_270 N, circleRadius_four, movePoints_four⟩

/-- C6: for every angle that is not a multiple of ninety degrees, the
trigonometric branch produces a point at distance exactly
`hypotenuse = 500 - r` from the centre `(500, 500)`, before rounding. -/
theorem c6_trig_distance (N : ℕ) (θ : ℝ) (h : ¬ ∃ k : ℤ, θ = 90 * k) :
    ((diagramPoint N θ).1 - 500) ^ 2 + ((diagramPoint N θ).2 - 500) ^ 2
      = (500 - (circleRadius N : ℝ)) ^ 2 := by
  have h0 : θ ≠ 0 := fun hc => h ⟨0, by rw [hc]; norm_num⟩
  have h90 : θ ≠ 90 := fun hc => h ⟨1, by rw [hc]; norm_num⟩
  have h180 : θ ≠ 180 := fun hc => h ⟨2, by rw [hc]; norm_num⟩
  have h270 : θ ≠ 270 := fun hc => h ⟨3, by rw [hc]; norm_num⟩
  have h360 : θ ≠ 360 := fun hc => h ⟨4, by rw [hc]; norm_num⟩
  exact diagramPoint_trig_dist h0 h90 h180 h270 h360

/-- Witness for C6 at the non-cardinal angle forty-five degrees. -/
theorem c6_witness :
    (¬ ∃ k : ℤ, (45 : ℝ) = 90 * k)
    ∧ ((diagramPoint 3 45).1 - 500) ^ 2 + ((diagramPoint 3 45).2 - 500) ^ 2
        = (500 - (circleRadius 3 : ℝ)) ^ 2 := by
  have h45 : ¬ ∃ k : ℤ, (45 : ℝ) = 90 * k := by
    rintro ⟨k, hk⟩
    have h1 : (2 * k : ℤ) = 1 := by
      have h2 : ((2 * k : ℤ) : ℝ) = 1 := by push_cast; linarith
      exact_mod_cast h2
    omega
  exact ⟨h45, c6_trig_distance 3 45 h45⟩

/-- C7: every point in the layout output has both coordinates equal to an
integer number of hundredths (two decimal places), and rounding it again
leaves it unchanged. -/
theorem c7_rounded_coords (N : ℕ) (p : ℝ × ℝ) (hp : p ∈ movePoints N) :
    (∃ a : ℤ, p.1 = (a : ℝ) / 100) ∧ (∃ b : ℤ, p.2 = (b : ℝ) / 100)
    ∧ roundPoint p = p := by
  simp only [movePoints, List.mem_map] at hp
  obtain ⟨q, _, rfl⟩ := hp
  refine ⟨⟨pyRoundIntR ((diagramPoint N (q : ℝ)).1 * 100), rfl⟩,
    ⟨pyRoundIntR ((diagramPoint N (q : ℝ)).2 * 100), rfl⟩, ?_⟩
  show roundPoint (roundPoint _) = roundPoint _
  rw [roundPoint, roundPoint, round2R_idem, round2R_idem]

/-- Witness for C7 at the east point of the four-move layout. -/
theorem c7_witness :
    ((875 : ℝ), (500 : ℝ)) ∈ movePoints 4
    ∧ ((∃ a : ℤ, ((875 : ℝ), (500 : ℝ)).1 = (a : ℝ) / 100)
      ∧ (∃ b : ℤ, ((875 : ℝ), (500 : ℝ)).2 = (b : ℝ) / 100)
      ∧ roundPoint ((875 : ℝ), (500 : ℝ)) = ((875 : ℝ), (500 : ℝ))) := by
  have hmem : ((875 : ℝ), (500 : ℝ)) ∈ movePoints 4 := by
    rw [movePoints_four]
    exact List.mem_cons_self _ _
  exact ⟨hmem, c7_rounded_coords 4 _ hmem⟩

lemma radiansOf_120 : radiansOf 120 = Real.pi / 6 := by
  rw [radiansOf, pmod]
  have hf : ⌊(120 : ℝ) / 90⌋ = 1 := by
    rw [Int.floor_eq_iff]
    norm_num
  rw [hf]
  push_cast
  ring

/-- The first laid-out point of the three-move diagram sits at angle 120,
in the second trigonometric quadrant. -/
lemma diagramPoint_three_120 :
    diagramPoint 3 120
      = (500 + 333 * Real.cos (Real.pi / 6), 500 + 333 * Real.sin (Real.pi / 6)) := by
  have hr : ((circleRadius 3 : ℤ) : ℝ) = 167 := by
    rw [circleRadius_three]
    norm_num
  simp only [diagramPoint, hr, radiansOf_120]
  norm_num

/-- C4 counterexample: the first point of the three-move layout is not
the north anchor `(R, r)`: its y-coordinate is `666.5` (the point sits at
angle `120`, not at angle `0`); the north anchor is instead the LAST
point, and it sits at distance `333 = R - r` from the centre, not at
distance `R = 500`. -/
theorem c4_counterexample :
    ((movePoints 3).get? 0).map Prod.snd = some (1333 / 2 : ℝ)
    ∧ (1333 / 2 : ℝ) ≠ (circleRadius 3 : ℝ)
    ∧ (movePoints 3).get? 2 = some ((500 : ℝ), (circleRadius 3 : ℝ))
    ∧ ((500 : ℝ) - 500) ^ 2 + ((circleRadius 3 : ℝ) - 500) ^ 2 ≠ 500 ^ 2 := by
  have hr : ((circleRadius 3 : ℤ) : ℝ) = 167 := by
    rw [circleRadius_three]
    norm_num
  have hpts : (movePoints 3).get? 0
      = some (roundPoint (diagramPoint 3 ((120 : ℚ) : ℝ))) := by
    rw [movePoints, angles_three]
    rfl
  have hpts2 : (movePoints 3).get? 2
      = some (roundPoint (diagramPoint 3 ((360 : ℚ) : ℝ))) := by
    rw [movePoints, angles_three]
    rfl
  refine ⟨?_, by rw [hr]; norm_num, ?_, by rw [hr]; norm_num⟩
  · rw [hpts, show ((120 : ℚ) : ℝ) = 120 by norm_num, diagramPoint_three_120]
    have hy : round2R (500 + 333 * Real.sin (Real.pi / 6)) = 1333 / 2 := by
      rw [Real.sin_pi_div_six]
      have he : (500 : ℝ) + 333 * (1 / 2) = 1333 / 2 := by norm_num
      rw [he]
      exact round2R_eq_self 66650 (by norm_num)
    show some (roundPoint (500 + 333 * Real.cos (Real.pi / 6),
      500 + 333 * Real.sin (Real.pi / 6))).2 = some (1333 / 2 : ℝ)
    show some (round2R (500 + 333 * Real.sin (Real.pi / 6))) = some (1333 / 2 : ℝ)
    rw [hy]
  · rw [hpts2, show ((360 : ℚ) : ℝ) = 360 by norm_num, diagramPoint_360, hr]
    show some (round2R 500, round2R 167) = _
    rw [round2R_eq_self 50000 (by norm_num), round2R_eq_self 16700 (by norm_num)]

/-- Relating a rational angle of the list to a whole number of degrees. -/
lemma angle_cast_eq {N k : ℕ} (hN : (N : ℚ) ≠ 0) {c : ℕ}
    (h : ((((k : ℚ) + 1) * (360 / N) : ℚ) : ℝ) = (c : ℝ)) : 360 * (k + 1) = c * N := by
  have hq : ((k : ℚ) + 1) * (360 / N) = (c : ℚ) := by exact_mod_cast h
  rw [← mul_div_assoc] at hq
  have h2 := (div_eq_iff hN).mp hq
  have h3 : ((360 * (k + 1) : ℕ) : ℚ) = ((c * N : ℕ) : ℚ) := by
    push_cast
    linear_combination h2
  exact_mod_cast h3

/-- C4 amended: the layout has one point per move, at equal angular
increments of `360/N` clockwise, but the sequence starts at angle
`360/N` rather than at north: the point at index `k` sits at angle
`(k+1) * 360/N`, the point at index `N-1` (angle 360) is the north
anchor `(R, r)`, and every point lies (before rounding) on the circle of
radius `hypotenuse = R - r` centred at `(R, R)`, not radius `R`. -/
theorem c4_amended (N : ℕ) (hodd : N % 2 = 1) (hlen : 3 ≤ N) :
    (movePoints N).length = N
    ∧ (∀ k, k < N → (angles N).get? k = some (((k : ℚ) + 1) * (360 / N)))
    ∧ (movePoints N).get? (N - 1) = some ((500 : ℝ), (circleRadius N : ℝ))
    ∧ (∀ q ∈ angles N,
        ((diagramPoint N (q : ℝ)).1 - 500) ^ 2 + ((diagramPoint N (q : ℝ)).2 - 500) ^ 2
          = (500 - (circleRadius N : ℝ)) ^ 2) := by
  have hN0 : (N : ℚ) ≠ 0 := Nat.cast_ne_zero.mpr (by omega)
  have hget : ∀ k, k < N → (angles N).get? k = some (((k : ℚ) + 1) * (360 / N)) := by
    intro k hk
    rw [angles_eq N (by omega), List.get?_map, List.get?_range hk]
    rfl
  refine ⟨?_, hget, ?_, ?_⟩
  · rw [movePoints, List.length_map, angles_eq N (by omega), List.length_map,
      List.length_range]
  · have hlast := hget (N - 1) (by omega)
    have hq1 : (((N - 1 : ℕ) : ℚ) + 1) = (N : ℚ) := by
      have : ((N - 1 : ℕ) : ℚ) = (N : ℚ) - 1 := by
        push_cast [Nat.cast_sub (by omega : 1 ≤ N)]
        ring
      rw [this]
      ring
    have hval : (((N - 1 : ℕ) : ℚ) + 1) * (360 / N) = (360 : ℚ) := by
      rw [hq1]
      field_simp
    rw [movePoints, List.get?_map, hlast]
    simp only [Option.map_some']
    rw [hval]
    rw [show ((360 : ℚ) : ℝ) = 360 by norm_num, diagramPoint_360]
    have hr2 : ∃ z : ℤ, (circleRadius N : ℝ) = (z : ℝ) := ⟨circleRadius N, rfl⟩
    obtain ⟨z, hz⟩ := hr2
    rw [show roundPoint ((500 : ℝ), (circleRadius N : ℝ))
        = (round2R 500, round2R (circleRadius N : ℝ)) from rfl]
    rw [round2R_eq_self 50000 (by norm_num), hz, round2R_intCast]
  · intro q hq
    rw [angles_eq N (by omega)] at hq
    simp only [List.mem_map, List.mem_range] at hq
    obtain ⟨k, hk, rfl⟩ := hq
    by_cases hlast : k + 1 = N
    · have hq1 : ((k : ℚ) + 1) = (N : ℚ) := by exact_mod_cast hlast
      have h360 : ((((k : ℚ) + 1) * (360 / N) : ℚ) : ℝ) = 360 := by
        rw [hq1]
        rw [show (N : ℚ) * (360 / N) = 360 by field_simp]
        norm_num
      rw [h360]
      exact diagramPoint_cardinal_dist N (Or.inr (Or.inr (Or.inr (Or.inr rfl))))
    · apply diagramPoint_trig_dist
      · intro hc
        have h := angle_cast_eq hN0 (c := 0) (by rw [hc]; norm_num)
        omega
      · intro hc
        have h := angle_cast_eq hN0 (c := 90) (by rw [hc]; norm_num)
        omega
      · intro hc
        have h := angle_cast_eq hN0 (c := 180) (by rw [hc]; norm_num)
        omega
      · intro hc
        have h := angle_cast_eq hN0 (c := 270) (by rw [hc]; norm_num)
        omega
      · intro hc
        have h := angle_cast_eq hN0 (c := 360) (by rw [hc]; norm_num)
        omega

/-- Witness for C4 (amended) at move count three. -/
theorem c4_witness :
    3 % 2 = 1 ∧ 3 ≤ 3
    ∧ ((movePoints 3).length = 3
      ∧ (∀ k, k < 3 → (angles 3).get? k = some (((k : ℚ) + 1) * (360 / 3)))
      ∧ (movePoints 3).get? (3 - 1) = some ((500 : ℝ), (circleRadius 3 : ℝ))
      ∧ (∀ q ∈ angles 3,
          ((diagramPoint 3 (q : ℝ)).1 - 500) ^ 2 + ((diagramPoint 3 (q : ℝ)).2 - 500) ^ 2
            = (500 - (circleRadius 3 : ℝ)) ^ 2)) :=
  ⟨rfl, le_refl 3, c4_amended 3 rfl (le_refl 3)⟩

/-- Rounding to two decimal places moves a value by at most `1/200`. -/
lemma rounded_close (q : ℚ) : |rounded q - q| ≤ 1 / 200 := by
  have key : ∀ x : ℚ, |((pyRoundInt x : ℤ) : ℚ) - x| ≤ 1 / 2 := by
    intro x
    have hf := Int.floor_le x
    have hf2 := Int.lt_floor_add_one x
    rw [pyRoundInt]
    split_ifs with h1 h2 h3 <;> rw [abs_le] <;> constructor <;> push_cast <;> linarith
  have h := key (q * 100)
  have he : rounded q - q = (((pyRoundInt (q * 100) : ℤ) : ℚ) - q * 100) / 100 := by
    rw [rounded]
    ring
  rw [he, abs_div, abs_of_pos (by norm_num : (0 : ℚ) < 100)]
  linarith

/-- C9 counterexample: the claim says the label target width IS the
product `min(len(name), 12)/12 * 1.9 * r`, but the code rounds that
product to two decimal places; with seven moves (`r = 71`) and a
five-letter name the product is `1349/24 = 56.2083...` while the width
produced is `56.21`. -/
theorem c9_counterexample :
    (makeLabel 7 "abcde" ((0 : ℝ), (0 : ℝ))).widthPx
      ≠ 19/10 * (circleRadius 7 : ℚ) * ((((min "abcde".length 12 : ℕ) : ℚ)) / 12) := by
  have hlen : "abcde".length = 5 := by decide
  show rounded (19/10 * (circleRadius 7 : ℚ) * ((((min "abcde".length 12 : ℕ) : ℚ)) / 12))
      ≠ _
  rw [hlen, circleRadius_seven]
  norm_num [rounded, pyRoundInt]

/-- C9 amended: the label text is the move's name; the target width is
the product `1.9 * r * (min(len(name), 12)/12)` rounded to two decimal
places (hence within `1/200` of the product); the insertion point's
x-coordinate equals the point's (already two-decimal) x-coordinate, and
its y-coordinate is the point's y-coordinate shifted down by
`text_size/4` with `text_size = r/3`, rounded to two decimals. -/
theorem c9_amended (N : ℕ) (name : String) (p : ℝ × ℝ)
    (hp : ∃ a : ℤ, p.1 = (a : ℝ) / 100) :
    (makeLabel N name p).text = name
    ∧ (makeLabel N name p).widthPx
        = rounded (19/10 * (circleRadius N : ℚ) * (((min name.length 12 : ℕ) : ℚ) / 12))
    ∧ |(makeLabel N name p).widthPx
        - 19/10 * (circleRadius N : ℚ) * (((min name.length 12 : ℕ) : ℚ) / 12)| ≤ 1 / 200
    ∧ (makeLabel N name p).insert.1 = p.1
    ∧ (makeLabel N name p).insert.2 = round2R (p.2 + (circleRadius N : ℝ) / 3 / 4) := by
  obtain ⟨a, ha⟩ := hp
  refine ⟨rfl, rfl, rounded_close _, ?_, rfl⟩
  show round2R p.1 = p.1
  rw [ha, round2R_hundredth]

/-- Witness for C9 (amended) at the east point of the four-move layout. -/
theorem c9_witness :
    (∃ a : ℤ, ((875 : ℝ), (500 : ℝ)).1 = (a : ℝ) / 100)
    ∧ ((makeLabel 4 "Rock" ((875 : ℝ), (500 : ℝ))).text = "Rock"
      ∧ (makeLabel 4 "Rock" ((875 : ℝ), (500 : ℝ))).widthPx
          = rounded (19/10 * (circleRadius 4 : ℚ) * (((min "Rock".length 12 : ℕ) : ℚ) / 12))
      ∧ |(makeLabel 4 "Rock" ((875 : ℝ), (500 : ℝ))).widthPx
          - 19/10 * (circleRadius 4 : ℚ) * (((min "Rock".length 12 : ℕ) : ℚ) / 12)| ≤ 1 / 200
      ∧ (makeLabel 4 "Rock" ((875 : ℝ), (500 : ℝ))).insert.1 = ((875 : ℝ), (500 : ℝ)).1
      ∧ (makeLabel 4 "Rock" ((875 : ℝ), (500 : ℝ))).insert.2
          = round2R (((875 : ℝ), (500 : ℝ)).2 + (circleRadius 4 : ℝ) / 3 / 4)) :=
  ⟨⟨87500, by norm_num⟩, c9_amended 4 "Rock" _ ⟨87500, by norm_num⟩⟩
